import Mathlib

/-!
Shallow embedding of the linuiz kernel memory subsystem, for checking the
natural-language specification against the sources.

Components modelled:
* `FrameAllocator` — the physical frame ledger
  (`src/src/kernel/src/mem/alloc/pmm.rs`).  The ledger is a `List Bool`
  (one bit per frame, `true` = in use); frame addresses are plain `Nat`s
  with `index = address / 4096` (`page_shift = 12`).
* `SLOB` — the block heap allocator (`src/kernel/src/slob.rs`).  The
  tracking table is a `List Nat`, each entry one `BlockPage` (`u64`
  bitmask, 64 blocks of 64 bytes per 4096-byte page); `u64` arithmetic is
  Nat arithmetic with explicit wrapping `% 2^64` where the source wraps.
  Shift amounts are reduced `% 64`, the semantics of a Rust release build
  (the hardware `shl`); a debug build would instead panic on a shift
  amount of 64, which is noted where it matters.
* `malloc` — the global allocator front
  (`src/libkernel/src/memory/malloc.rs`).

Fatal conditions (failed `assert!` / panics) are modelled as `none` of an
`Option` result; recoverable errors as `Except` with the source's error
enum.  Page-mapper side effects (`auto_map`, `unmap`, `copy_by_map`) are
recorded as lists of touched page indices; `copy_by_map` relocation is
modelled as content copy, since the remapped virtual pages alias the same
physical frames and the old virtual addresses are no longer used
afterwards.
-/

namespace FrameAllocator

/-- Error enum of `pmm.rs` (`pub enum Error`). -/
inductive Error
  | NoneFree
  | InvalidAlignment
  | OutOfBounds
  | NotFree
  | NotLocked
  | TypeMismatch
  | Unknown
deriving DecidableEq

/-- Source `BitSlice::first_zero`: index of the first `false` bit, low to high. -/
def first_zero : List Bool → Option Nat
  | [] => none
  | b :: rest => if b then (first_zero rest).map (· + 1) else some 0

/-- Source `FrameAllocator::next_frame`: find the first zero bit, set it, return
`Address::new(index << page_shift())` together with the updated ledger. -/
def next_frame (l : List Bool) : Except Error (Nat × List Bool) :=
  match first_zero l with
  | none => .error .NoneFree
  | some i => .ok (i * 4096, l.set i true)

/-- Source `window.not_any()` for the window of `count` bits starting at `i`. -/
def window_free (l : List Bool) (i count : Nat) : Bool :=
  (List.range count).all fun j => !(l.getD (i + j) true)

/-- The `windows(count).enumerate().step_by(skip).find_map(...)` scan of
`next_frames`: window start indexes `0, skip, 2*skip, …` are tried in
order while `i + count ≤ l.length` (i.e. while the window exists); the
fuel argument bounds the recursion (with `skip ≥ 1`, `l.length + 1` steps
always suffice). -/
def find_aligned_go (l : List Bool) (count skip : Nat) : Nat → Nat → Option Nat
  | 0, _ => none
  | fuel + 1, i =>
    if i + count ≤ l.length then
      if window_free l i count then some i
      else find_aligned_go l count skip fuel (i + skip)
    else none

def find_aligned (l : List Bool) (count skip : Nat) : Option Nat :=
  find_aligned_go l count skip (l.length + 1) 0

/-- Source `window.fill(v)` on `l[i .. i+count)`. -/
def fill_range (l : List Bool) (i count : Nat) (v : Bool) : List Bool :=
  match count with
  | 0 => l
  | c + 1 => fill_range (l.set i v) (i + 1) c v

/-- Source `FrameAllocator::next_frames(count, align_bits)`:
`align_index_skip = max(1, align_bits >> page_shift())` with
`align_bits = align.unwrap_or(NonZeroU32::MIN) = 1` for `None`; scan for
the first aligned all-zero window, fill it with ones, return the start
address. -/
def next_frames (count : Nat) (align_bits : Option Nat) (l : List Bool) :
    Except Error (Nat × List Bool) :=
  let skip := max 1 ((align_bits.getD 1) / 4096)
  match find_aligned l count skip with
  | none => .error .NoneFree
  | some i => .ok (i * 4096, fill_range l i count true)

/-- Source `FrameAllocator::lock_frame(address)`. -/
def lock_frame (address : Nat) (l : List Bool) : Except Error (List Bool) :=
  let index := address / 4096
  if l.length ≤ index then .error .OutOfBounds
  else .ok (l.set index true)

/-- Source `FrameAllocator::free_frame(address)`. -/
def free_frame (address : Nat) (l : List Bool) : Except Error (List Bool) :=
  let index := address / 4096
  if l.length ≤ index then .error .OutOfBounds
  else .ok (l.set index false)

/-- Addresses returned by `n` successive `next_frame` calls with no
intervening frees (stopping at the first `NoneFree`). -/
def next_frame_addrs : List Bool → Nat → List Nat
  | _, 0 => []
  | l, n + 1 =>
    match next_frame l with
    | .error _ => []
    | .ok (a, l') => a :: next_frame_addrs l' n

/-- Folding `free_frame` over a list of addresses, left to right. -/
def free_many (l : List Bool) : List Nat → Except Error (List Bool)
  | [] => .ok l
  | a :: rest =>
    match free_frame a l with
    | .error e => .error e
    | .ok l' => free_many l' rest

/-- The `count` frame addresses of the contiguous run granted at `a`. -/
def frame_run (a count : Nat) : List Nat :=
  (List.range count).map fun k => a + k * 4096

end FrameAllocator

namespace FrameAllocator

theorem first_zero_none_iff (l : List Bool) :
    first_zero l = none ↔ ∀ b ∈ l, b = true := by
  induction l with
  | nil => simp [first_zero]
  | cons b rest ih =>
    cases b <;> simp [first_zero, Option.map_eq_none', ih]

theorem first_zero_some : ∀ (l : List Bool) (i : Nat), first_zero l = some i →
    i < l.length ∧ l.getD i false = false ∧ ∀ j < i, l.getD j false = true := by
  intro l
  induction l with
  | nil => intro i h; simp [first_zero] at h
  | cons b rest ih =>
    intro i h
    cases b with
    | false =>
      simp [first_zero] at h
      subst h
      simp
    | true =>
      rw [show first_zero (true :: rest) = (first_zero rest).map (· + 1) from rfl] at h
      cases hfz : first_zero rest with
      | none => rw [hfz] at h; simp at h
      | some i' =>
        rw [hfz] at h
        simp only [Option.map_some', Option.some.injEq] at h
        subst h
        obtain ⟨h1, h2, h3⟩ := ih i' hfz
        refine ⟨by simpa using h1, by simpa using h2, ?_⟩
        intro j hj
        cases j with
        | zero => simp
        | succ j' => simpa using h3 j' (by omega)

theorem next_frame_ok (l : List Bool) (a : Nat) (l' : List Bool)
    (h : next_frame l = .ok (a, l')) :
    first_zero l = some (a / 4096) ∧ a = (a / 4096) * 4096 ∧
      l' = l.set (a / 4096) true := by
  unfold next_frame at h
  cases hfz : first_zero l with
  | none => rw [hfz] at h; exact absurd h (by simp)
  | some i =>
    rw [hfz] at h
    simp only [Except.ok.injEq, Prod.mk.injEq] at h
    obtain ⟨rfl, rfl⟩ := h
    rw [Nat.mul_div_cancel i (by norm_num)]
    exact ⟨rfl, rfl, rfl⟩

theorem getD_set_true_of_getD_true (l : List Bool) (i j : Nat)
    (h : l.getD j false = true) : (l.set i true).getD j false = true := by
  rcases eq_or_ne i j with rfl | hne
  · rcases Nat.lt_or_ge i l.length with hl | hl
    · simp [List.getD, List.getElem?_set_self', hl]
    · simp [List.getD, List.getElem?_eq_none (by simpa using hl)] at h
  · simpa [List.getD, List.getElem?_set_ne hne] using h

theorem not_mem_next_frame_addrs (l : List Bool) (n a : Nat)
    (ha : l.getD (a / 4096) false = true) : a ∉ next_frame_addrs l n := by
  induction n generalizing l with
  | zero => simp [next_frame_addrs]
  | succ n ih =>
    unfold next_frame_addrs
    cases hnf : next_frame l with
    | error e => simp
    | ok p =>
      obtain ⟨b, l'⟩ := p
      simp only [List.mem_cons, not_or]
      constructor
      · rintro rfl
        obtain ⟨hfz, -, -⟩ := next_frame_ok l a l' hnf
        obtain ⟨-, h2, -⟩ := first_zero_some l (a / 4096) hfz
        rw [ha] at h2
        exact absurd h2 (by simp)
      · refine ih l' ?_
        obtain ⟨-, -, rfl⟩ := next_frame_ok l b l' hnf
        exact getD_set_true_of_getD_true l _ _ ha

theorem next_frame_addrs_nodup (l : List Bool) (n : Nat) :
    (next_frame_addrs l n).Nodup := by
  induction n generalizing l with
  | zero => simp [next_frame_addrs]
  | succ n ih =>
    unfold next_frame_addrs
    cases hnf : next_frame l with
    | error e => simp
    | ok p =>
      obtain ⟨a, l'⟩ := p
      refine List.nodup_cons.mpr ⟨?_, ih l'⟩
      apply not_mem_next_frame_addrs
      obtain ⟨hfz, -, rfl⟩ := next_frame_ok l a l' hnf
      obtain ⟨h1, -, -⟩ := first_zero_some l (a / 4096) hfz
      simp [List.getD, List.getElem?_set_self', h1]

/-- C3: the source `next_frame` returns the frame address whose index is the lowest
zero bit of the ledger (scanning low to high) and sets exactly that bit;
it returns `NoneFree` iff no bit is zero; and the addresses returned by
any number of repeated calls without intervening frees are pairwise
distinct (in particular a frame currently marked used is never
returned). -/
theorem next_frame_lowest_zero_spec (l : List Bool) (n : Nat) :
    (match next_frame l with
      | .ok (a, l') =>
          a = (a / 4096) * 4096 ∧
          a / 4096 < l.length ∧
          l.getD (a / 4096) false = false ∧
          (∀ j < a / 4096, l.getD j false = true) ∧
          l' = l.set (a / 4096) true
      | .error e => e = Error.NoneFree ∧ ∀ b ∈ l, b = true)
    ∧ (next_frame_addrs l n).Nodup := by
  refine ⟨?_, next_frame_addrs_nodup l n⟩
  cases hnf : next_frame l with
  | ok p =>
    obtain ⟨a, l'⟩ := p
    obtain ⟨hfz, heq, hset⟩ := next_frame_ok l a l' hnf
    obtain ⟨h1, h2, h3⟩ := first_zero_some l (a / 4096) hfz
    exact ⟨heq, h1, h2, h3, hset⟩
  | error e =>
    unfold next_frame at hnf
    cases hfz : first_zero l with
    | some i => rw [hfz] at hnf; exact absurd hnf (by simp)
    | none =>
      rw [hfz] at hnf
      simp only [Except.error.injEq] at hnf
      exact ⟨hnf.symm, (first_zero_none_iff l).mp hfz⟩

/-- Witness for C3 at a concrete input: a 2-frame ledger with frame 0
used, two iterated calls. -/
theorem next_frame_lowest_zero_spec_witness :
    (match next_frame [true, false] with
      | .ok (a, l') =>
          a = (a / 4096) * 4096 ∧
          a / 4096 < [true, false].length ∧
          [true, false].getD (a / 4096) false = false ∧
          (∀ j < a / 4096, [true, false].getD j false = true) ∧
          l' = [true, false].set (a / 4096) true
      | .error e => e = Error.NoneFree ∧ ∀ b ∈ [true, false], b = true)
    ∧ (next_frame_addrs [true, false] 2).Nodup :=
  next_frame_lowest_zero_spec [true, false] 2

end FrameAllocator

namespace FrameAllocator

theorem window_free_iff (l : List Bool) (i count : Nat) :
    window_free l i count = true ↔ ∀ j < count, l.getD (i + j) true = false := by
  simp [window_free, List.all_eq_true, List.mem_range]

theorem find_aligned_go_some : ∀ (l : List Bool) (count fuel i r : Nat),
    find_aligned_go l count 1 fuel i = some r →
    i ≤ r ∧ r + count ≤ l.length ∧ window_free l r count = true ∧
      ∀ j, i ≤ j → j < r → window_free l j count = false := by
  intro l count fuel
  induction fuel with
  | zero => intro i r h; simp [find_aligned_go] at h
  | succ fuel ih =>
    intro i r h
    unfold find_aligned_go at h
    by_cases hb : i + count ≤ l.length
    · rw [if_pos hb] at h
      by_cases hw : window_free l i count = true
      · rw [if_pos hw] at h
        simp only [Option.some.injEq] at h
        subst h
        exact ⟨le_refl i, hb, hw, fun j h1 h2 => absurd (lt_of_le_of_lt h1 h2) (lt_irrefl i)⟩
      · rw [if_neg hw] at h
        obtain ⟨h1, h2, h3, h4⟩ := ih (i + 1) r h
        refine ⟨by omega, h2, h3, ?_⟩
        intro j hj1 hj2
        rcases eq_or_ne j i with rfl | hne
        · exact eq_false_of_ne_true hw
        · exact h4 j (by omega) hj2
    · rw [if_neg hb] at h
      exact absurd h (by simp)

theorem find_aligned_go_none : ∀ (l : List Bool) (count fuel i : Nat),
    l.length + 1 ≤ fuel + i →
    find_aligned_go l count 1 fuel i = none →
    ∀ j, i ≤ j → j + count ≤ l.length → window_free l j count = false := by
  intro l count fuel
  induction fuel with
  | zero =>
    intro i hfuel _ j hj1 hj2
    omega
  | succ fuel ih =>
    intro i hfuel h j hj1 hj2
    unfold find_aligned_go at h
    by_cases hb : i + count ≤ l.length
    · rw [if_pos hb] at h
      by_cases hw : window_free l i count = true
      · rw [if_pos hw] at h; exact absurd h (by simp)
      · rw [if_neg hw] at h
        rcases eq_or_ne j i with rfl | hne
        · exact eq_false_of_ne_true hw
        · exact ih (i + 1) (by omega) h j (by omega) hj2
    · rw [if_neg hb] at h
      omega

/-- The §8 scenario's initial ledger: 16 frames, frames 0 and 5 used. -/
def scenario_initial : List Bool :=
  [true, false, false, false, false, true,
   false, false, false, false, false, false, false, false, false, false]

/-- The §8 scenario after frames 1–4 are additionally marked used. -/
def scenario_marked : List Bool :=
  [true, true, true, true, true, true,
   false, false, false, false, false, false, false, false, false, false]

/-- C4: the source `next_frames(count, None)` (so with index stride 1) returns the
start address of the lowest run of `count` contiguous zero bits and sets
all of them, and returns `NoneFree` iff no such run exists; and in the §8
scenario (16 frames, frames 0 and 5 pre-marked used) `next_frame` returns
frame 1, and after frames 1–4 are also marked used, `next_frames(3, None)`
skips index 5 and returns index 6. -/
theorem next_frames_lowest_run_spec (l : List Bool) (count : Nat)
    (hc : 0 < count) :
    (match next_frames count none l with
      | .ok (a, l') =>
          a = (a / 4096) * 4096 ∧
          a / 4096 + count ≤ l.length ∧
          (∀ j < count, l.getD (a / 4096 + j) true = false) ∧
          (∀ i < a / 4096, i + count ≤ l.length →
            ∃ j < count, l.getD (i + j) true = true) ∧
          l' = fill_range l (a / 4096) count true
      | .error e =>
          e = Error.NoneFree ∧
          ∀ i, i + count ≤ l.length → ∃ j < count, l.getD (i + j) true = true)
    ∧ next_frame scenario_initial = .ok (1 * 4096, scenario_initial.set 1 true)
    ∧ next_frames 3 none scenario_marked =
        .ok (6 * 4096, fill_range scenario_marked 6 3 true) := by
  refine ⟨?_, by rfl, by rfl⟩
  have hwin : ∀ i, window_free l i count = false →
      ∃ j < count, l.getD (i + j) true = true := by
    intro i hw
    by_contra hcon
    push_neg at hcon
    have : window_free l i count = true := by
      rw [window_free_iff]
      intro j hj
      cases hgd : l.getD (i + j) true with
      | false => rfl
      | true => exact absurd hgd (hcon j hj)
    rw [this] at hw
    exact absurd hw (by simp)
  rw [show next_frames count none l = (match find_aligned l count 1 with
      | none => .error .NoneFree
      | some i => .ok (i * 4096, fill_range l i count true)) from rfl]
  cases hfa : find_aligned l count 1 with
  | some i =>
    obtain ⟨-, h2, h3, h4⟩ := find_aligned_go_some l count (l.length + 1) 0 i hfa
    have hidx : i * 4096 / 4096 = i := Nat.mul_div_cancel i (by norm_num)
    refine ⟨?_, ?_, ?_, ?_, ?_⟩
    · rw [hidx]
    · rw [hidx]; exact h2
    · rw [hidx]; exact (window_free_iff l i count).mp h3
    · rw [hidx]
      intro i' hi' _
      exact hwin i' (h4 i' (Nat.zero_le i') hi')
    · rw [hidx]
  | none =>
    refine ⟨rfl, ?_⟩
    intro i hi
    exact hwin i (find_aligned_go_none l count (l.length + 1) 0 (by omega) hfa i
      (Nat.zero_le i) hi)

/-- Witness for C4 at a concrete input: count 3 on the scenario ledger. -/
theorem next_frames_lowest_run_spec_witness :
    (0 : Nat) < 3 ∧
    ((match next_frames 3 none scenario_marked with
      | .ok (a, l') =>
          a = (a / 4096) * 4096 ∧
          a / 4096 + 3 ≤ scenario_marked.length ∧
          (∀ j < 3, scenario_marked.getD (a / 4096 + j) true = false) ∧
          (∀ i < a / 4096, i + 3 ≤ scenario_marked.length →
            ∃ j < 3, scenario_marked.getD (i + j) true = true) ∧
          l' = fill_range scenario_marked (a / 4096) 3 true
      | .error e =>
          e = Error.NoneFree ∧
          ∀ i, i + 3 ≤ scenario_marked.length →
            ∃ j < 3, scenario_marked.getD (i + j) true = true)
    ∧ next_frame scenario_initial = .ok (1 * 4096, scenario_initial.set 1 true)
    ∧ next_frames 3 none scenario_marked =
        .ok (6 * 4096, fill_range scenario_marked 6 3 true)) :=
  ⟨by decide, next_frames_lowest_run_spec scenario_marked 3 (by decide)⟩

end FrameAllocator

namespace FrameAllocator

theorem fill_range_length : ∀ (c : Nat) (l : List Bool) (i : Nat) (v : Bool),
    (fill_range l i c v).length = l.length := by
  intro c
  induction c with
  | zero => intro l i v; rfl
  | succ c ih =>
    intro l i v
    show (fill_range (l.set i v) (i + 1) c v).length = l.length
    rw [ih, List.length_set]

theorem fill_range_getElem? : ∀ (c : Nat) (l : List Bool) (i j : Nat) (v : Bool),
    (fill_range l i c v)[j]? =
      if i ≤ j ∧ j < i + c ∧ j < l.length then some v else l[j]? := by
  intro c
  induction c with
  | zero =>
    intro l i j v
    rw [if_neg (by omega)]
    rfl
  | succ c ih =>
    intro l i j v
    show (fill_range (l.set i v) (i + 1) c v)[j]? = _
    rw [ih, List.length_set]
    by_cases h1 : i + 1 ≤ j ∧ j < i + 1 + c ∧ j < l.length
    · rw [if_pos h1, if_pos (by omega)]
    · rw [if_neg h1]
      rcases eq_or_ne i j with rfl | hne
      · by_cases h2 : i < l.length
        · rw [if_pos (by omega)]
          simp [List.getElem?_set_self', h2]
        · rw [if_neg (by omega)]
          rw [List.getElem?_set]
          rw [if_pos rfl, if_neg h2]
          rw [List.getElem?_eq_none (by omega)]
      · rw [List.getElem?_set_ne hne, if_neg (by omega)]

theorem free_many_run : ∀ (n : Nat) (l0 : List Bool) (i : Nat),
    i + n ≤ l0.length →
    free_many l0 (frame_run (i * 4096) n) = .ok (fill_range l0 i n false) := by
  intro n
  induction n with
  | zero => intro l0 i _; rfl
  | succ n ih =>
    intro l0 i hlen
    have hrun : frame_run (i * 4096) (n + 1) =
        (i * 4096) :: frame_run ((i + 1) * 4096) n := by
      unfold frame_run
      rw [List.range_succ_eq_map, List.map_cons, List.map_map]
      refine congrArg₂ _ (by ring) ?_
      refine List.map_congr_left ?_
      intro k _
      simp only [Function.comp_apply]
      omega
    rw [hrun]
    show (match free_frame (i * 4096) l0 with
      | .error e => Except.error e
      | .ok l' => free_many l' (frame_run ((i + 1) * 4096) n)) = _
    have hidx : i * 4096 / 4096 = i := Nat.mul_div_cancel i (by norm_num)
    unfold free_frame
    rw [hidx, if_neg (by omega)]
    show free_many (l0.set i false) (frame_run ((i + 1) * 4096) n) = _
    rw [ih (l0.set i false) (i + 1) (by rw [List.length_set]; omega)]
    rfl

theorem fill_true_then_false (l : List Bool) (i n : Nat)
    (hwin : window_free l i n = true) :
    fill_range (fill_range l i n true) i n false = l := by
  apply List.ext_getElem?
  intro j
  rw [fill_range_getElem?, fill_range_getElem?, fill_range_length]
  by_cases h : i ≤ j ∧ j < i + n ∧ j < l.length
  · rw [if_pos h]
    have hj := ((window_free_iff l i n).mp hwin) (j - i) (by omega)
    rw [show i + (j - i) = j by omega] at hj
    unfold List.getD at hj
    rw [List.get?_eq_getElem?] at hj
    have : l[j]? = some false := by
      cases hg : l[j]? with
      | none =>
        rw [List.getElem?_eq_none_iff] at hg
        omega
      | some b =>
        rw [hg] at hj
        simp only [Option.getD_some] at hj
        rw [hj]
    rw [this]
  · rw [if_neg h, if_neg h]

/-- C5: whenever the source `next_frames(count, None)` succeeds, calling `free_frame`
on each of the `count` returned frame addresses restores the ledger to
exactly its bit pattern before the call. -/
theorem next_frames_free_round_trip (l : List Bool) (count a : Nat)
    (l' : List Bool) (h : next_frames count none l = .ok (a, l')) :
    free_many l' (frame_run a count) = .ok l := by
  rw [show next_frames count none l = (match find_aligned l count 1 with
      | none => .error .NoneFree
      | some i => .ok (i * 4096, fill_range l i count true)) from rfl] at h
  cases hfa : find_aligned l count 1 with
  | none => rw [hfa] at h; exact absurd h (by simp)
  | some i =>
    rw [hfa] at h
    simp only [Except.ok.injEq, Prod.mk.injEq] at h
    obtain ⟨rfl, rfl⟩ := h
    obtain ⟨-, h2, h3, -⟩ := find_aligned_go_some l count (l.length + 1) 0 i hfa
    rw [free_many_run count (fill_range l i count true) i
      (by rw [fill_range_length]; omega)]
    rw [fill_true_then_false l i count h3]

/-- Witness for C5 at a concrete input: a 3-frame ledger, count 2. -/
theorem next_frames_free_round_trip_witness :
    free_many (fill_range [false, false, false] 0 2 true) (frame_run 0 2) =
      .ok [false, false, false] :=
  next_frames_free_round_trip [false, false, false] 2 0
    (fill_range [false, false, false] 0 2 true) rfl

end FrameAllocator

namespace FrameAllocator

theorem set_false_of_already_false (l : List Bool) (i : Nat)
    (h : l.getD i true = false) : l.set i false = l := by
  apply List.ext_getElem?
  intro j
  rcases eq_or_ne i j with rfl | hne
  · unfold List.getD at h
    rw [List.get?_eq_getElem?] at h
    cases hg : l[i]? with
    | none => simp [List.getElem?_set, List.getElem?_eq_none_iff.mp hg, hg]
    | some b =>
      rw [hg] at h
      simp only [Option.getD_some] at h
      subst h
      have hlen : i < l.length := by
        by_contra hc
        rw [List.getElem?_eq_none (by omega)] at hg
        exact absurd hg (by simp)
      simp [List.getElem?_set, hlen, hg]
  · rw [List.getElem?_set_ne hne]

/-- C8: the source `free_frame` on an in-bounds frame always succeeds and leaves the
frame's bit clear; if the bit was already clear the ledger is unchanged
(idempotent, never fatal); and `free_frame` fails only with `OutOfBounds`,
exactly when the frame index is at or past the ledger's length. -/
theorem free_frame_idempotent_spec (l : List Bool) (address : Nat) :
    match free_frame address l with
    | .ok l' =>
        address / 4096 < l.length ∧
        l' = l.set (address / 4096) false ∧
        l'.getD (address / 4096) true = false ∧
        (l.getD (address / 4096) true = false → l' = l)
    | .error e => e = Error.OutOfBounds ∧ l.length ≤ address / 4096 := by
  unfold free_frame
  by_cases hb : l.length ≤ address / 4096
  · rw [if_pos hb]
    exact ⟨rfl, hb⟩
  · rw [if_neg hb]
    refine ⟨by omega, rfl, ?_, fun h => set_false_of_already_false l _ h⟩
    unfold List.getD
    rw [List.get?_eq_getElem?, List.getElem?_set, if_pos rfl,
      if_pos (by omega)]
    rfl

/-- Witness for C8 at a concrete input: freeing already-free frame 1 of a
2-frame ledger. -/
theorem free_frame_idempotent_spec_witness :
    match free_frame 4096 [true, false] with
    | .ok l' =>
        4096 / 4096 < [true, false].length ∧
        l' = [true, false].set (4096 / 4096) false ∧
        l'.getD (4096 / 4096) true = false ∧
        ([true, false].getD (4096 / 4096) true = false → l' = [true, false])
    | .error e => e = Error.OutOfBounds ∧ [true, false].length ≤ 4096 / 4096 :=
  free_frame_idempotent_spec [true, false] 4096

/-- C10: the source `lock_frame` succeeds on every in-bounds frame — also when the
frame is already marked used — and sets the frame's bit; its only failure
is `OutOfBounds`; and no ledger operation ever returns the `NotFree`
error variant. -/
theorem lock_frame_tolerates_locked_spec (l : List Bool)
    (address count a2 : Nat) (ab : Option Nat) :
    (match lock_frame address l with
      | .ok l' =>
          address / 4096 < l.length ∧
          l' = l.set (address / 4096) true ∧
          l'.getD (address / 4096) false = true
      | .error e => e = Error.OutOfBounds ∧ l.length ≤ address / 4096)
    ∧ (∀ e, next_frame l = .error e → e ≠ Error.NotFree)
    ∧ (∀ e, next_frames count ab l = .error e → e ≠ Error.NotFree)
    ∧ (∀ e, lock_frame a2 l = .error e → e ≠ Error.NotFree)
    ∧ (∀ e, free_frame a2 l = .error e → e ≠ Error.NotFree) := by
  refine ⟨?_, ?_, ?_, ?_, ?_⟩
  · unfold lock_frame
    by_cases hb : l.length ≤ address / 4096
    · rw [if_pos hb]
      exact ⟨rfl, hb⟩
    · rw [if_neg hb]
      refine ⟨by omega, rfl, ?_⟩
      unfold List.getD
      rw [List.get?_eq_getElem?, List.getElem?_set, if_pos rfl,
        if_pos (by omega)]
      rfl
  · intro e he
    unfold next_frame at he
    cases hfz : first_zero l with
    | none =>
      rw [hfz] at he
      simp only [Except.error.injEq] at he
      subst he
      intro hcon
      exact absurd hcon (by simp)
    | some i => rw [hfz] at he; exact absurd he (by simp)
  · intro e he
    rw [show next_frames count ab l =
        (match find_aligned l count (max 1 ((ab.getD 1) / 4096)) with
          | none => Except.error Error.NoneFree
          | some i => Except.ok (i * 4096, fill_range l i count true))
        from rfl] at he
    cases hfa : find_aligned l count (max 1 ((ab.getD 1) / 4096)) with
    | none =>
      rw [hfa] at he
      simp only [Except.error.injEq] at he
      subst he
      intro hcon
      exact absurd hcon (by simp)
    | some i => rw [hfa] at he; exact absurd he (by simp)
  · intro e he
    unfold lock_frame at he
    by_cases hb : l.length ≤ a2 / 4096
    · rw [if_pos hb] at he
      simp only [Except.error.injEq] at he
      subst he
      intro hcon
      exact absurd hcon (by simp)
    · rw [if_neg hb] at he
      exact absurd he (by simp)
  · intro e he
    unfold free_frame at he
    by_cases hb : l.length ≤ a2 / 4096
    · rw [if_pos hb] at he
      simp only [Except.error.injEq] at he
      subst he
      intro hcon
      exact absurd hcon (by simp)
    · rw [if_neg hb] at he
      exact absurd he (by simp)

/-- Witness for C10 at a concrete input: locking already-locked frame 0
of a 2-frame ledger. -/
theorem lock_frame_tolerates_locked_spec_witness :
    ((match lock_frame 0 [true, false] with
      | .ok l' =>
          0 / 4096 < [true, false].length ∧
          l' = [true, false].set (0 / 4096) true ∧
          l'.getD (0 / 4096) false = true
      | .error e => e = Error.OutOfBounds ∧ [true, false].length ≤ 0 / 4096)
    ∧ (∀ e, next_frame [true, false] = .error e → e ≠ Error.NotFree)
    ∧ (∀ e, next_frames 1 none [true, false] = .error e → e ≠ Error.NotFree)
    ∧ (∀ e, lock_frame 8192 [true, false] = .error e → e ≠ Error.NotFree)
    ∧ (∀ e, free_frame 8192 [true, false] = .error e → e ≠ Error.NotFree)) :=
  lock_frame_tolerates_locked_spec [true, false] 0 1 8192 none

end FrameAllocator

namespace Malloc

/-- Modelled from the spec: the state of `DEFAULT_MALLOCATOR`, a
`SyncRefCell<&'static dyn MemoryAllocator>` whose implementation is not
among the sources.  Per the spec it is "a process-wide, write-once
reference to the active allocator implementation"; its state is the
optional installed reference, initially absent. -/
def State (α : Type) : Type := Option α

/-- Modelled from the spec: `malloc::set` installs the allocator
reference into the write-once cell (the claim only exercises the single
call made during bring-up, on the still-unset cell). -/
def set {α : Type} (allocator : α) (st : State α) : State α :=
  match st with
  | none => some allocator
  | some old => some old

/-- Source `malloc::get`: `DEFAULT_MALLOCATOR.get().expect("no default
allocator")` — reading the unset cell is a fatal panic with that
diagnostic, modelled as the `error` case carrying the panic message. -/
def get {α : Type} (st : State α) : Except String α :=
  match st with
  | none => .error "no default allocator"
  | some a => .ok a

/-- C9: reading the global allocator front before it has been set is a
fatal error (panic with the diagnostic "no default allocator"); once
`set` has installed an allocator into the unset cell, every subsequent
`get` returns exactly that installed reference (`get` never mutates the
cell). -/
theorem get_before_set_fatal_spec :
    (get (none : State Nat) = .error "no default allocator")
    ∧ (∀ a : Nat, get (set a (none : State Nat)) = .ok a) :=
  ⟨rfl, fun _ => rfl⟩

end Malloc

namespace SLOB

/-- Constant `u64::MAX`, the value of a fully-used `BlockPage`
(`BlockPage::set_full`); `0` is fully empty (`BlockPage::is_empty`). -/
def U64_MAX : Nat := 2 ^ 64 - 1

/-- Modelled from the spec: `libkernel::align_up_div(x, d)` (its source
file is not included) is ceiling division — the spec's
`ceil(size / block_size)`. -/
def align_up_div (x d : Nat) : Nat := (x + d - 1) / d

/-- Modelled from the spec: `libkernel::align_up(x, d)` rounds up to the
next multiple of `d`. -/
def align_up (x d : Nat) : Nat := align_up_div x d * d

/-- Source `SLOB::calculate_bit_fields(map_index, cur_block_index,
end_block_index)`, returning `(mask_bit_count, bit_mask)`.  The source
computes the mask as `((1u64 << mask_bit_count).wrapping_sub(1)) <<
mask_bit_offset`; shift amounts are reduced modulo 64 (Rust release
semantics — a debug build panics when `mask_bit_count = 64`), so for a
fully-covered page the mask is `(1 << 0) - 1 = 0`.  `wrapping_sub(1)`
itself never wraps since `1 << (count % 64) ≥ 1`. -/
def calculate_bit_fields (map_index cur_block_index end_block_index : Nat) :
    Nat × Nat :=
  let floor_blocks_index := map_index * 64
  let ceil_blocks_index := floor_blocks_index + 64
  let mask_bit_offset := cur_block_index - floor_blocks_index
  let mask_bit_count := min ceil_blocks_index end_block_index - cur_block_index
  (mask_bit_count,
    (((1 <<< (mask_bit_count % 64)) - 1) <<< (mask_bit_offset % 64)) % 2 ^ 64)

/-- The per-`BlockPage` loop of `SLOB::dealloc`, iterating `steps =
end_table_index - map_index` entries.  A failed assert (`"attempting to
deallocate blocks that are already deallocated"`) is `none` (fatal);
otherwise the result is the updated table together with the indexes of
the pages passed to `unmap(page, true)` — exactly those entries that went
nonempty to empty (`had_bits && !has_bits`). -/
def dealloc_go (end_block_index : Nat) :
    Nat → Nat → Nat → List Nat → Option (List Nat × List Nat)
  | 0, _, _, table => some (table, [])
  | steps + 1, map_index, block_index, table =>
    let block_page := table.getD map_index 0
    let bf := calculate_bit_fields map_index block_index end_block_index
    if block_page &&& bf.2 = bf.2 then
      let block_page' := block_page ^^^ bf.2
      match dealloc_go end_block_index steps (map_index + 1)
          (block_index + bf.1) (table.set map_index block_page') with
      | none => none
      | some (tf, unmaps) =>
          some (tf, (if block_page ≠ 0 ∧ block_page' = 0
            then [map_index] else []) ++ unmaps)
    else none

/-- Source `SLOB::dealloc(ptr, layout)`: recompute the block range from pointer
and size (`BLOCK_SIZE = 64`), then walk the touched `BlockPage`s. -/
def dealloc (ptr size : Nat) (table : List Nat) :
    Option (List Nat × List Nat) :=
  let start_block_index := ptr / 64
  let end_block_index := start_block_index + align_up_div size 64
  let start_table_index := start_block_index / 64
  let end_table_index := align_up_div end_block_index 64
  dealloc_go end_block_index (end_table_index - start_table_index)
    start_table_index start_block_index table

/-- The inner bit loop of `SLOB::alloc` over one non-full `BlockPage`
value: `remaining` counts down from 64 (`bit_shift` counts up);
`.inr block_index` is the `break 'outer` with the not-yet-incremented
`block_index`; `.inl` carries the `(block_index, current_run)` state into
the next table entry. -/
def scan_bits (v align_mask size_in_blocks : Nat) :
    Nat → Nat → Nat → Nat → Sum (Nat × Nat) Nat
  | 0, _, block_index, current_run => .inl (block_index, current_run)
  | remaining + 1, bit_shift, block_index, current_run =>
    if v.testBit bit_shift then
      scan_bits v align_mask size_in_blocks remaining (bit_shift + 1)
        (block_index + 1) 0
    else if current_run > 0 ∨ bit_shift &&& align_mask = 0 then
      if current_run + 1 = size_in_blocks then .inr block_index
      else
        scan_bits v align_mask size_in_blocks remaining (bit_shift + 1)
          (block_index + 1) (current_run + 1)
    else
      scan_bits v align_mask size_in_blocks remaining (bit_shift + 1)
        (block_index + 1) current_run

/-- The outer table scan of `SLOB::alloc`: `some (end_table_index,
break_block_index)` when a run is found, `none` when the whole table is
scanned without success (the caller then grows and rescans). -/
def scan_table (align_mask size_in_blocks : Nat) :
    List Nat → Nat → Nat → Nat → Option (Nat × Nat)
  | [], _, _, _ => none
  | v :: rest, table_index, block_index, current_run =>
    if v = U64_MAX then
      scan_table align_mask size_in_blocks rest (table_index + 1)
        (block_index + 64) 0
    else
      match scan_bits v align_mask size_in_blocks 64 0 block_index
          current_run with
      | .inr break_index => some (table_index + 1, break_index)
      | .inl s =>
          scan_table align_mask size_in_blocks rest (table_index + 1)
            s.1 s.2

/-- The claim loop of `SLOB::alloc` after a run is found: OR the mask
into each touched entry, where `mask_bits` is
`1u64.checked_shl(remaining).unwrap_or(u64::MAX).wrapping_sub(1)` — note
this is `u64::MAX - 1`, not `u64::MAX`, when `remaining = 64`.  Entries
transitioning empty to nonempty are recorded as `auto_map`ped pages. -/
def claim_go (end_block_index : Nat) :
    Nat → Nat → Nat → List Nat → List Nat × List Nat
  | 0, _, _, table => (table, [])
  | steps + 1, table_index, block_index, table =>
    let v := table.getD table_index 0
    let block_index_floor := table_index * 64
    let low_offset := block_index - block_index_floor
    let remaining := min (end_block_index - block_index)
      (block_index_floor + 64 - block_index)
    let mask_bits := if remaining < 64 then (1 <<< remaining) - 1
      else U64_MAX - 1
    let v2 := v ||| ((mask_bits <<< (low_offset % 64)) % 2 ^ 64)
    let r := claim_go end_block_index steps (table_index + 1)
      (block_index + remaining) (table.set table_index v2)
    (r.1, (if v = 0 then [table_index] else []) ++ r.2)

/-- One pass of `SLOB::alloc` without growth: `align_mask =
max(align / BLOCK_SIZE, 1) - 1`, `size_in_blocks = ceil(size / 64)`, the
table scan, then the claim loop.  Returns `(address, table',
auto_mapped_pages)`; `none` means no run was found and `grow` runs
next. -/
def alloc_step (size align : Nat) (table : List Nat) :
    Option (Nat × List Nat × List Nat) :=
  let align_mask := max (align / 64) 1 - 1
  let size_in_blocks := align_up_div size 64
  match scan_table align_mask size_in_blocks table 0 0 0 with
  | none => none
  | some p =>
    let end_block_index := p.2 + 1
    let start_block_index := p.2 - (size_in_blocks - 1)
    let start_table_index := start_block_index / 64
    let r := claim_go end_block_index (p.1 - start_table_index)
      start_table_index start_block_index table
    some (start_block_index * 64, r.1, r.2)

/-- Rust `usize::next_power_of_two`: the smallest power of two greater
than or equal to the input (`0` and `1` both give `1`), computed by
doubling from 1; `n` doubling steps always suffice since `n < 2 ^ n`. -/
def next_pow2_go : Nat → Nat → Nat → Nat
  | 0, acc, _ => acc
  | fuel + 1, acc, target =>
    if target ≤ acc then acc else next_pow2_go fuel (acc * 2) target

def next_power_of_two (n : Nat) : Nat := next_pow2_go n 1 n

/-- The heap state: the tracking table (one `u64` `BlockPage` value per
heap page) and the page index at which the table itself currently
resides (`table_write.as_ptr() as usize / 0x1000` — the table tracks the
very address space it lives in, entry `i` covering heap page `i`). -/
structure State where
  table : List Nat
  base : Nat
deriving DecidableEq

/-- The vacant-run search of `SLOB::grow`: first index starting a run of
`req` consecutive empty (`= 0`) entries, scanning with a running count
exactly as the source does. -/
def find_run_go (req : Nat) : List Nat → Nat → Nat → Option Nat
  | [], _, _ => none
  | v :: rest, index, current_run =>
    if v = 0 then
      if current_run + 1 = req then some (index - current_run)
      else find_run_go req rest (index + 1) (current_run + 1)
    else find_run_go req rest (index + 1) 0

def find_run (table : List Nat) (req : Nat) : Option Nat :=
  find_run_go req table 0 0

/-- Quantity `req_table_len` of `SLOB::grow`. -/
def req_table_len (required_blocks cur_table_len : Nat) : Nat :=
  next_power_of_two (cur_table_len + align_up_div required_blocks 64)

/-- Page count of a table of `len` entries
(`align_up_div(len * size_of::<BlockPage>(), 0x1000)`). -/
def table_page_count (len : Nat) : Nat := align_up_div (len * 8) 4096

/-- The relocation target of `SLOB::grow`:
`start_index.get_or_init(|| cur_table_len)` — the start of a found run of
`req_table_page_count` already-vacant entries, or the current table end
when no run exists. -/
def grow_new_base (required_blocks : Nat) (st : State) : Nat :=
  (find_run st.table
    (table_page_count (req_table_len required_blocks st.table.length))).getD
    st.table.length

/-- Entry `i` of the relocated table built by `SLOB::grow`.  The base
content is the `copy_by_map`-aliased old entries (offsets `< cur_table_len`
land in the relocated old pages, whose frames hold the old bytes; the
freshly `auto_map`ped remainder pages are zeroed by `mem_clear`).  On top
of it the source runs three sequential mutation passes —
`table[0].set_full()`, then `set_full` over the new table's own page
range, then `set_empty` over the old table's page range — so later passes
win, hence the reversed `if` chain. -/
def grow_entry (required_blocks : Nat) (st : State) (i : Nat) : Nat :=
  if st.base ≤ i ∧ i < st.base + table_page_count st.table.length then 0
  else if grow_new_base required_blocks st ≤ i ∧
      i < grow_new_base required_blocks st +
        table_page_count (req_table_len required_blocks st.table.length) then
    U64_MAX
  else if i = 0 then U64_MAX
  else if i < st.table.length then st.table.getD i 0 else 0

/-- The relocated table of `SLOB::grow`: the source re-slices at the new
base with length `align_up(req_table_len, 0x1000 / size_of::<BlockPage>())
= align_up(req_table_len, 512)`. -/
def grow_table (required_blocks : Nat) (st : State) : List Nat :=
  (List.range (align_up (req_table_len required_blocks st.table.length) 512)).map
    (grow_entry required_blocks st)

/-- Source `SLOB::grow(required_blocks)`.  `none` models the two fatal asserts
(`required_blocks > 0` and the 128 TiB span ceiling
`req_table_len * 0x1000 < 0x746A52880000`); otherwise the table is
relocated to `grow_new_base` with the entry values of `grow_entry`. -/
def grow (required_blocks : Nat) (st : State) : Option State :=
  if required_blocks = 0 then none
  else if req_table_len required_blocks st.table.length * 4096 <
      0x746A52880000 then
    some ⟨grow_table required_blocks st, grow_new_base required_blocks st⟩
  else none

/-- Source `SLOB::alloc` with its grow-and-rescan loop, under a recursion
budget: each budget unit is one scan attempt; `none` covers both budget
exhaustion and the fatal grow asserts (the claims below exercise the
fatal case at the first iteration, where the budget is irrelevant). -/
def alloc (fuel size align : Nat) (st : State) :
    Option (Nat × State × List Nat) :=
  match fuel with
  | 0 => none
  | fuel + 1 =>
    match alloc_step size align st.table with
    | some r => some (r.1, ⟨r.2.1, st.base⟩, r.2.2)
    | none =>
      match grow (align_up_div size 64) st with
      | none => none
      | some st' => alloc fuel size align st'

end SLOB

namespace SLOB

/-- C1: evaluation of `SLOB::dealloc` at the failing inputs.  For a block
range covering an entire `BlockPage` (here `ptr = 8192`, `size = 4096`,
blocks 128–191 = all of entry 2), `calculate_bit_fields` computes
`mask_bit_count = 64`, so the mask is `(1 << (64 % 64)) - 1 = 0`: the
bits-currently-set assert passes vacuously even on a fully *empty* page
(silent acceptance of a double free, first conjunct), and on a fully used
page no bit is cleared and no unmap is issued (second conjunct), contrary
to the claim. -/
theorem dealloc_full_page_mask_zero :
    dealloc 8192 4096 [U64_MAX, U64_MAX, 0] =
      some ([U64_MAX, U64_MAX, 0], [])
    ∧ dealloc 8192 4096 [U64_MAX, U64_MAX, U64_MAX] =
        some ([U64_MAX, U64_MAX, U64_MAX], [])
    ∧ (calculate_bit_fields 2 128 192).2 = 0 :=
  ⟨rfl, rfl, rfl⟩

/-- C6: evaluation of `SLOB::alloc` at the failing input.  A request of
one full page (`size = 4096`, so `ceil(size / 64) = 64` blocks) on a
table whose first free run starts at a page boundary returns address
`8192` but marks only 63 blocks used: `mask_bits =
1u64.checked_shl(64).unwrap_or(u64::MAX).wrapping_sub(1) = u64::MAX - 1`,
whose bit 0 — the very block whose address is returned — stays free. -/
theorem alloc_full_page_claims_63 :
    alloc_step 4096 1 [U64_MAX, U64_MAX, 0] =
      some (8192, [U64_MAX, U64_MAX, U64_MAX - 1], [2])
    ∧ align_up_div 4096 64 = 64
    ∧ (U64_MAX - 1).testBit 0 = false
    ∧ (List.range 64).countP (fun b => (U64_MAX - 1).testBit b) = 63 := by
  refine ⟨by decide, rfl, by decide, by decide⟩

theorem scan_bits_zero_blocks (v align_mask : Nat) :
    ∀ (remaining bit_shift block_index current_run : Nat),
    ∃ p, scan_bits v align_mask 0 remaining bit_shift block_index
      current_run = .inl p := by
  intro remaining
  induction remaining with
  | zero => intro bit_shift block_index current_run; exact ⟨_, rfl⟩
  | succ remaining ih =>
    intro bit_shift block_index current_run
    unfold scan_bits
    by_cases ht : v.testBit bit_shift
    · rw [if_pos ht]
      exact ih (bit_shift + 1) (block_index + 1) 0
    · rw [if_neg ht]
      by_cases hr : current_run > 0 ∨ bit_shift &&& align_mask = 0
      · rw [if_pos hr, if_neg (by omega)]
        exact ih (bit_shift + 1) (block_index + 1) (current_run + 1)
      · rw [if_neg hr]
        exact ih (bit_shift + 1) (block_index + 1) current_run

theorem scan_table_zero_blocks (align_mask : Nat) :
    ∀ (t : List Nat) (ti bi run : Nat),
    scan_table align_mask 0 t ti bi run = none := by
  intro t
  induction t with
  | nil => intro ti bi run; rfl
  | cons v rest ih =>
    intro ti bi run
    unfold scan_table
    by_cases hf : v = U64_MAX
    · rw [if_pos hf]
      exact ih (ti + 1) (bi + 64) 0
    · rw [if_neg hf]
      obtain ⟨p, hp⟩ := scan_bits_zero_blocks v align_mask 64 0 bi run
      rw [hp]
      exact ih (ti + 1) p.1 p.2

theorem alloc_step_size_zero (align : Nat) (t : List Nat) :
    alloc_step 0 align t = none := by
  have h := scan_table_zero_blocks (max (align / 64) 1 - 1) t 0 0 0
  simp only [alloc_step, show align_up_div 0 64 = 0 from rfl, h]

/-- C7: evaluation of `SLOB::alloc` at size 0, which is fatal, not
successful.  The run-length check `current_run == size_in_blocks` sits
after `current_run += 1`, so with `size_in_blocks = 0` no table state can
ever satisfy it; the scan falls through to `grow(0)`, whose
`assert!(required_blocks > 0, "calls to grow must be nonzero")` fails
(second conjunct, shown on a concrete state). -/
theorem alloc_size_zero_fatal :
    (∀ fuel align st, alloc fuel 0 align st = none)
    ∧ grow 0 ⟨[U64_MAX, U64_MAX, 0, 0], 1⟩ = none := by
  refine ⟨?_, rfl⟩
  intro fuel align st
  cases fuel with
  | zero => rfl
  | succ fuel =>
    unfold alloc
    rw [alloc_step_size_zero]
    rfl

end SLOB

namespace SLOB

theorem next_pow2_go_ge : ∀ (fuel acc target : Nat),
    target ≤ acc * 2 ^ fuel → target ≤ next_pow2_go fuel acc target := by
  intro fuel
  induction fuel with
  | zero =>
    intro acc target h
    simpa [next_pow2_go] using h
  | succ fuel ih =>
    intro acc target h
    unfold next_pow2_go
    by_cases hle : target ≤ acc
    · rw [if_pos hle]; exact hle
    · rw [if_neg hle]
      refine ih (acc * 2) target ?_
      calc target ≤ acc * 2 ^ (fuel + 1) := h
        _ = acc * 2 * 2 ^ fuel := by ring

theorem next_pow2_go_pow : ∀ (fuel acc target : Nat),
    (∃ j, acc = 2 ^ j) → ∃ j, next_pow2_go fuel acc target = 2 ^ j := by
  intro fuel
  induction fuel with
  | zero => intro acc target h; simpa [next_pow2_go] using h
  | succ fuel ih =>
    intro acc target h
    unfold next_pow2_go
    by_cases hle : target ≤ acc
    · rw [if_pos hle]; exact h
    · rw [if_neg hle]
      obtain ⟨j, rfl⟩ := h
      exact ih (2 ^ j * 2) target ⟨j + 1, by ring⟩

theorem le_next_power_of_two (n : Nat) : n ≤ next_power_of_two n :=
  next_pow2_go_ge n 1 n (by simpa using Nat.le_of_lt (Nat.lt_two_pow n))

theorem next_power_of_two_pow (n : Nat) :
    ∃ j, next_power_of_two n = 2 ^ j :=
  next_pow2_go_pow n 1 n ⟨0, rfl⟩

theorem next_power_of_two_pos (n : Nat) : 1 ≤ next_power_of_two n := by
  obtain ⟨j, hj⟩ := next_power_of_two_pow n
  rw [hj]
  exact Nat.one_le_two_pow

theorem next_power_of_two_ge_double (k c : Nat) (hc : 1 ≤ c) :
    2 ^ (k + 1) ≤ next_power_of_two (2 ^ k + c) := by
  obtain ⟨j, hj⟩ := next_power_of_two_pow (2 ^ k + c)
  have hge : 2 ^ k + c ≤ 2 ^ j := hj ▸ le_next_power_of_two (2 ^ k + c)
  have hkj : k < j := by
    rw [← Nat.pow_lt_pow_iff_right (show 1 < 2 by norm_num)]
    omega
  rw [hj]
  exact Nat.pow_le_pow_right (by norm_num) hkj

theorem table_page_count_eq (x : Nat) :
    table_page_count x = (x + 511) / 512 := by
  unfold table_page_count align_up_div
  omega

theorem getD_range_map (f : Nat → Nat) (n i : Nat) :
    ((List.range n).map f).getD i 0 = if i < n then f i else 0 := by
  unfold List.getD
  rw [List.get?_eq_getElem?, List.getElem?_map]
  by_cases h : i < n
  · rw [if_pos h, List.getElem?_range h]; rfl
  · rw [if_neg h, List.getElem?_eq_none (by simpa using h)]; rfl

theorem getD_mem_of_lt (l : List Nat) (i : Nat) (h : i < l.length) :
    l.getD i 0 ∈ l := by
  unfold List.getD
  rw [List.get?_eq_getElem?, List.getElem?_eq_getElem h]
  exact List.getElem_mem h

theorem find_run_go_spec (T : List Nat) (req : Nat) :
    ∀ (fuel idx run s : Nat),
    T.length ≤ idx + fuel →
    run ≤ idx →
    (∀ m, idx - run ≤ m → m < idx → T.getD m 0 = 0) →
    find_run_go req (T.drop idx) idx run = some s →
    s + req ≤ T.length ∧ ∀ j, s ≤ j → j < s + req → T.getD j 0 = 0 := by
  intro fuel
  induction fuel with
  | zero =>
    intro idx run s hfuel _ _ hfind
    rw [List.drop_eq_nil_of_le (by omega)] at hfind
    exact absurd hfind (by simp [find_run_go])
  | succ fuel ih =>
    intro idx run s hfuel hrun hprev hfind
    cases hd : T.drop idx with
    | nil =>
      rw [hd] at hfind
      exact absurd hfind (by simp [find_run_go])
    | cons v rest =>
      rw [hd] at hfind
      have hidx : idx < T.length := by
        by_contra hc
        rw [List.drop_eq_nil_of_le (by omega)] at hd
        exact absurd hd (by simp)
      have hv : T.getD idx 0 = v := by
        unfold List.getD
        rw [List.get?_eq_getElem?]
        have hdg := List.getElem?_drop T idx 0
        rw [hd] at hdg
        simp only [List.getElem?_cons_zero, Nat.add_zero] at hdg
        rw [← hdg]
        rfl
      have hrest : T.drop (idx + 1) = rest := by
        rw [show idx + 1 = idx + 1 from rfl, ← List.drop_drop, hd]
        rfl
      unfold find_run_go at hfind
      by_cases hz : v = 0
      · rw [if_pos hz] at hfind
        by_cases hreq : run + 1 = req
        · rw [if_pos hreq] at hfind
          simp only [Option.some.injEq] at hfind
          subst hfind
          refine ⟨by omega, ?_⟩
          intro j hj1 hj2
          rcases Nat.lt_or_ge j idx with hj | hj
          · exact hprev j (by omega) hj
          · have hij : j = idx := by omega
            rw [hij, hv]
            exact hz
        · rw [if_neg hreq] at hfind
          refine ih (idx + 1) (run + 1) s (by omega) (by omega) ?_
            (by rw [hrest]; exact hfind)
          intro m hm1 hm2
          rcases Nat.lt_or_ge m idx with hm | hm
          · exact hprev m (by omega) hm
          · have : m = idx := by omega
            rw [this, hv]
            exact hz
      · rw [if_neg hz] at hfind
        refine ih (idx + 1) 0 s (by omega) (by omega) ?_
          (by rw [hrest]; exact hfind)
        intro m hm1 hm2
        omega

theorem find_run_spec (T : List Nat) (req s : Nat)
    (h : find_run T req = some s) :
    s + req ≤ T.length ∧ ∀ j, s ≤ j → j < s + req → T.getD j 0 = 0 := by
  refine find_run_go_spec T req T.length 0 0 s (by omega) (by omega) ?_ ?_
  · intro m hm1 hm2; omega
  · rw [List.drop_zero]; exact h

theorem grow_eq_some (required : Nat) (st st' : State)
    (h : grow required st = some st') :
    required ≠ 0 ∧ st'.table = grow_table required st ∧
      st'.base = grow_new_base required st := by
  unfold grow at h
  by_cases hreq : required = 0
  · rw [if_pos hreq] at h; exact absurd h (by simp)
  · rw [if_neg hreq] at h
    by_cases hceil : req_table_len required st.table.length * 4096 <
        0x746A52880000
    · rw [if_pos hceil] at h
      simp only [Option.some.injEq] at h
      subst h
      exact ⟨hreq, rfl, rfl⟩
    · rw [if_neg hceil] at h
      exact absurd h (by simp)

end SLOB

namespace SLOB

/-- C2: a successful heap grow, from a table satisfying the allocator's
standing invariants (power-of-two length as established by `new`/previous
grows, the table not at page 0, its own backing pages in range and marked
nonempty, entries `u64`-sized), preserves every `BlockPage` entry's bit
pattern across the table relocation, except that the new table's own
occupied pages are marked fully-used, the old table's vacated pages are
marked fully-empty, and entry 0 is fully-used; in particular every block
marked used before the grow — outside the vacated old-table pages — is
still marked used after it. -/
theorem grow_preserves_used_blocks (required : Nat) (st st' : State)
    (hpow : ∃ k, st.table.length = 2 ^ k)
    (hbase : 1 ≤ st.base)
    (hfit : st.base + table_page_count st.table.length ≤ st.table.length)
    (hself : ∀ j < table_page_count st.table.length,
      st.table.getD (st.base + j) 0 ≠ 0)
    (hword : ∀ v ∈ st.table, v < 2 ^ 64)
    (hgrow : grow required st = some st') :
    st.table.length < st'.table.length
    ∧ (∀ i, i < st.table.length →
        ¬(st.base ≤ i ∧ i < st.base + table_page_count st.table.length) →
        ¬(st'.base ≤ i ∧ i < st'.base +
            table_page_count (req_table_len required st.table.length)) →
        i ≠ 0 →
        st'.table.getD i 0 = st.table.getD i 0)
    ∧ (∀ i, st'.base ≤ i →
        i < st'.base +
          table_page_count (req_table_len required st.table.length) →
        st'.table.getD i 0 = U64_MAX)
    ∧ (∀ i, st.base ≤ i → i < st.base + table_page_count st.table.length →
        st'.table.getD i 0 = 0)
    ∧ st'.table.getD 0 0 = U64_MAX
    ∧ (∀ i b, i < st.table.length →
        ¬(st.base ≤ i ∧ i < st.base + table_page_count st.table.length) →
        (st.table.getD i 0).testBit b = true →
        (st'.table.getD i 0).testBit b = true) := by
  obtain ⟨hreq, htab, hb⟩ := grow_eq_some required st st' hgrow
  have hgetD : ∀ i, st'.table.getD i 0 =
      if i < align_up (req_table_len required st.table.length) 512
      then grow_entry required st i else 0 := by
    intro i
    rw [htab]
    unfold grow_table
    exact getD_range_map _ _ i
  have hlen' : st'.table.length =
      align_up (req_table_len required st.table.length) 512 := by
    rw [htab]
    unfold grow_table
    rw [List.length_map, List.length_range]
  have hc1 : 1 ≤ align_up_div required 64 := by
    unfold align_up_div
    omega
  have hRge : st.table.length + align_up_div required 64 ≤
      req_table_len required st.table.length :=
    le_next_power_of_two _
  have hLR : st.table.length < req_table_len required st.table.length := by
    omega
  have hNL512 : align_up (req_table_len required st.table.length) 512 =
      512 * table_page_count (req_table_len required st.table.length) := by
    rw [table_page_count_eq]
    unfold align_up align_up_div
    omega
  have hRleNL : req_table_len required st.table.length ≤
      align_up (req_table_len required st.table.length) 512 := by
    unfold align_up align_up_div
    omega
  have hLltNL : st.table.length <
      align_up (req_table_len required st.table.length) 512 := by omega
  have hR1 : 1 ≤ req_table_len required st.table.length :=
    next_power_of_two_pos _
  have hreqP1 : 1 ≤ table_page_count (req_table_len required st.table.length) := by
    rw [table_page_count_eq]
    omega
  have h2L : 2 * st.table.length ≤ req_table_len required st.table.length := by
    obtain ⟨k, hk⟩ := hpow
    unfold req_table_len
    rw [hk]
    calc 2 * 2 ^ k = 2 ^ (k + 1) := by ring
      _ ≤ next_power_of_two (2 ^ k + align_up_div required 64) :=
        next_power_of_two_ge_double k _ hc1
  have hkey : (∀ i, grow_new_base required st ≤ i ∧
        i < grow_new_base required st +
          table_page_count (req_table_len required st.table.length) →
        ¬(st.base ≤ i ∧ i < st.base + table_page_count st.table.length))
      ∧ grow_new_base required st +
          table_page_count (req_table_len required st.table.length) ≤
        align_up (req_table_len required st.table.length) 512 := by
    cases hfr : find_run st.table
        (table_page_count (req_table_len required st.table.length)) with
    | some s =>
      obtain ⟨hsb, hsz⟩ := find_run_spec st.table _ s hfr
      have hNBs : grow_new_base required st = s := by
        unfold grow_new_base
        rw [hfr]
        rfl
      rw [hNBs]
      constructor
      · rintro i ⟨hi1, hi2⟩ ⟨ho1, ho2⟩
        have hz := hsz i hi1 hi2
        have hne := hself (i - st.base) (by omega)
        rw [show st.base + (i - st.base) = i by omega] at hne
        exact hne hz
      · omega
    | none =>
      have hNBs : grow_new_base required st = st.table.length := by
        unfold grow_new_base
        rw [hfr]
        rfl
      rw [hNBs]
      constructor
      · rintro i ⟨hi1, hi2⟩ ⟨ho1, ho2⟩
        omega
      · omega
  obtain ⟨hdisj, hNBle⟩ := hkey
  have hmaxbit : ∀ b, b < 64 → U64_MAX.testBit b = true := by
    intro b hb
    unfold U64_MAX
    rw [Nat.testBit_two_pow_sub_one]
    simpa using hb
  have hbit64 : ∀ i b, i < st.table.length →
      (st.table.getD i 0).testBit b = true → b < 64 := by
    intro i b hiL htb
    by_contra hbc
    have hvlt : st.table.getD i 0 < 2 ^ 64 :=
      hword _ (getD_mem_of_lt _ _ hiL)
    have : (st.table.getD i 0).testBit b = false :=
      Nat.testBit_eq_false_of_lt
        (lt_of_lt_of_le hvlt (Nat.pow_le_pow_right (by norm_num) (by omega)))
    rw [this] at htb
    exact absurd htb (by simp)
  refine ⟨?_, ?_, ?_, ?_, ?_, ?_⟩
  · rw [hlen']
    omega
  · intro i hiL hold hnew hi0
    rw [hb] at hnew
    rw [hgetD i, if_pos (by omega)]
    unfold grow_entry
    rw [if_neg hold, if_neg hnew, if_neg hi0, if_pos hiL]
  · intro i h1 h2
    rw [hb] at h1 h2
    rw [hgetD i, if_pos (by omega)]
    unfold grow_entry
    rw [if_neg (hdisj i ⟨h1, h2⟩), if_pos ⟨h1, h2⟩]
  · intro i h1 h2
    rw [hgetD i, if_pos (by omega)]
    unfold grow_entry
    rw [if_pos ⟨h1, h2⟩]
  · rw [hgetD 0, if_pos (by omega)]
    unfold grow_entry
    rw [if_neg (by omega)]
    by_cases hn : grow_new_base required st ≤ 0 ∧
        0 < grow_new_base required st +
          table_page_count (req_table_len required st.table.length)
    · rw [if_pos hn]
    · rw [if_neg hn, if_pos rfl]
  · intro i b hiL hold htb
    have hb64 : b < 64 := hbit64 i b hiL htb
    rw [hgetD i, if_pos (by omega)]
    unfold grow_entry
    rw [if_neg hold]
    by_cases hnew : grow_new_base required st ≤ i ∧
        i < grow_new_base required st +
          table_page_count (req_table_len required st.table.length)
    · rw [if_pos hnew]
      exact hmaxbit b hb64
    · rw [if_neg hnew]
      by_cases hi0 : i = 0
      · rw [if_pos hi0]
        exact hmaxbit b hb64
      · rw [if_neg hi0, if_pos hiL]
        exact htb

end SLOB

namespace SLOB

/-- A concrete pre-grow heap state for the C2 witness: a table of two
fully-used entries (the null page and the table's own page), the table
residing at page 1. -/
def c2_state : State := ⟨[U64_MAX, U64_MAX], 1⟩

/-- The state produced by `grow 1 c2_state`. -/
def c2_state2 : State := ⟨grow_table 1 c2_state, grow_new_base 1 c2_state⟩

/-- Witness for C2 at a concrete input: growing `c2_state` by one block. -/
theorem grow_preserves_used_blocks_witness :
    (∃ k, c2_state.table.length = 2 ^ k) ∧
    grow 1 c2_state = some c2_state2 ∧
    (c2_state.table.length < c2_state2.table.length
    ∧ (∀ i, i < c2_state.table.length →
        ¬(c2_state.base ≤ i ∧
          i < c2_state.base + table_page_count c2_state.table.length) →
        ¬(c2_state2.base ≤ i ∧ i < c2_state2.base +
            table_page_count (req_table_len 1 c2_state.table.length)) →
        i ≠ 0 →
        c2_state2.table.getD i 0 = c2_state.table.getD i 0)
    ∧ (∀ i, c2_state2.base ≤ i →
        i < c2_state2.base +
          table_page_count (req_table_len 1 c2_state.table.length) →
        c2_state2.table.getD i 0 = U64_MAX)
    ∧ (∀ i, c2_state.base ≤ i →
        i < c2_state.base + table_page_count c2_state.table.length →
        c2_state2.table.getD i 0 = 0)
    ∧ c2_state2.table.getD 0 0 = U64_MAX
    ∧ (∀ i b, i < c2_state.table.length →
        ¬(c2_state.base ≤ i ∧
          i < c2_state.base + table_page_count c2_state.table.length) →
        (c2_state.table.getD i 0).testBit b = true →
        (c2_state2.table.getD i 0).testBit b = true)) :=
  ⟨⟨1, rfl⟩, rfl,
    grow_preserves_used_blocks 1 c2_state c2_state2 ⟨1, rfl⟩ (by decide)
      (by decide) (by decide) (by decide) rfl⟩

end SLOB
